import Mathlib

/-!
Shallow embedding of `dragos240/AIMP4-playlist-to-m3u` (files
`src/aimp2m3u/playlists.py` and `src/aimp2m3u/aimp.py`).

Modelling conventions:
* Python `str` is modelled by Lean `String`; the character-level helpers
  below work on `String.data : List Char`.
* Per the spec (section 4.2) the path data is Windows style; path
  decomposition (`pathlib.Path(...).parts`) splits at every separator —
  `pathlib` treats both the backslash and the forward slash as
  separators on Windows — and, like `pathlib`, collapses empty
  components and single-dot components.  Drive/anchor handling is not
  modelled: every concrete path used below is a plain relative Windows
  path, on which `pathlib` behaves exactly like this model.
* Python `str.replace(old, new)` (which replaces EVERY left-to-right
  non-overlapping occurrence) is modelled by `replaceAllCh` below, a
  fuel-indexed structural recursion (fuel = string length, which always
  suffices because each step consumes at least one character).
* Fallible Python code (raised exceptions) is modelled with
  `Option`/`Except`.
-/

set_option autoImplicit false

/-- True when `pat` occurs as a contiguous substring of `s`
(the model of Python's `pat in s`). -/
def hasSubstrCh : List Char → List Char → Bool
  | [], pat => pat.isEmpty
  | c :: rest, pat => pat.isPrefixOf (c :: rest) || hasSubstrCh rest pat

/-- String-level wrapper for `hasSubstrCh`. -/
def strContains (s pat : String) : Bool :=
  hasSubstrCh s.data pat.data

/-- Split a character list on a separator character; always returns a
non-empty list of (possibly empty) chunks, like Python `str.split(sep)`. -/
def splitOnChar (sep : Char) : List Char → List (List Char)
  | [] => [[]]
  | c :: rest =>
    match splitOnChar sep rest with
    | [] => [[]]
    | a :: as => if c = sep then [] :: a :: as else (c :: a) :: as

/-- String-level wrapper for `splitOnChar` (model of `str.split(sep)`
for a one-character separator). -/
def splitOnStr (sep : Char) (s : String) : List String :=
  (splitOnChar sep s.data).map String.mk

/-- Fuel-indexed worker for replace-all.  With `fuel ≥ s.length` it
replaces every left-to-right non-overlapping occurrence of `pat` in `s`
by `rep`, exactly like Python's `str.replace`. -/
def replaceGo (pat rep : List Char) : Nat → List Char → List Char
  | _, [] => []
  | 0, s => s
  | fuel + 1, c :: rest =>
    if pat ≠ [] ∧ pat.isPrefixOf (c :: rest) then
      rep ++ replaceGo pat rep fuel (List.drop pat.length (c :: rest))
    else
      c :: replaceGo pat rep fuel rest

/-- Model of Python `s.replace(pat, rep)` on character lists. -/
def replaceAllCh (s pat rep : List Char) : List Char :=
  replaceGo pat rep s.length s

/-- Model of Python `s.replace(pat, rep)` on strings. -/
def replaceAllS (s pat rep : String) : String :=
  String.mk (replaceAllCh s.data pat.data rep.data)

/-- Join a list of strings with a separator string, the model of
`"sep".join(parts)` and (for separator-free relative components) of
`os.path.join(*parts)` on Windows. -/
def joinWith (sep : String) : List String → String
  | [] => ""
  | [p] => p
  | p :: q :: ps => p ++ sep ++ joinWith sep (q :: ps)

/-- Split a character list at every Windows path separator: `pathlib`
treats both the backslash and the forward slash as separators. -/
def splitOnSeps : List Char → List (List Char)
  | [] => [[]]
  | c :: rest =>
    match splitOnSeps rest with
    | [] => [[]]
    | a :: as =>
      if c = '\x5c' ∨ c = '/' then [] :: a :: as else (c :: a) :: as

/-- Model of `pathlib.Path(p).parts` for Windows path strings: split at
every separator (backslash or forward slash, as `pathlib` does on
Windows); empty chunks (repeated/trailing separators) and single-dot
chunks are collapsed, as `pathlib` does. -/
def pathParts (p : String) : List String :=
  ((splitOnSeps p.data).map String.mk).filter
    (fun c => !(c == "") && !(c == "."))

/-- Model of `pathlib.Path(p).name`: the last component, or `""` when
there is none. -/
def pathName (p : String) : String :=
  (pathParts p).getLastD ""

/-! ## Data model (`src/aimp2m3u/playlists.py`) -/

/-- Embedding of class `PlaylistSong`. -/
structure PlaylistSong where
  path : String
  song_name : String
  artist : String
  album : String
deriving DecidableEq, Repr

/-- Embedding of class `M3uPlaylist`.  Python's `__init__` does not set
the `common_path` attribute; it is set by `convert_to_relative`, hence
an `Option` initialised to `none`. -/
structure M3uPlaylist where
  filename : String
  songs : List PlaylistSong
  common_path : Option String := none
deriving DecidableEq, Repr

/-- Embedding of `M3uPlaylist.__init__` (`filename = name + ".m3u"`). -/
def M3uPlaylist.make (name : String) (songs : List PlaylistSong) : M3uPlaylist :=
  { filename := name ++ ".m3u", songs := songs }

/-- Embedding of `M3uPlaylist.__str__`: the songs' paths joined by
single newlines. -/
def m3u_str (pl : M3uPlaylist) : String :=
  joinWith "\n" (pl.songs.map (fun s => s.path))

/-- Number of lines of a rendered string: `0` for the empty string,
otherwise the number of newline-separated chunks.  (For strings that do
not end in a newline — every output of `m3u_str` on non-empty paths —
this agrees with Python's `len(s.splitlines())`.) -/
def lineCount (s : String) : Nat :=
  if s = "" then 0 else (splitOnChar '\n' s.data).length

/-- Python `min(list_of_part_counts)` from `find_common_path`; the
Python call raises `ValueError` on an empty list, so this worker is only
invoked on a non-empty list (see `find_common_path`). -/
def minParts (p : List String) (ps : List (List String)) : Nat :=
  ps.foldl (fun m q => Nat.min m q.length) p.length

/-- The inner loop of `find_common_path` at index `i`: Python walks the
songs comparing each part with the previous one (`last_part`) and
clears `same_part` at the first mismatch, which holds exactly when all
part lists agree with the first one at index `i`. -/
def samePartAt (paths : List (List String)) (i : Nat) : Bool :=
  match paths with
  | [] => true
  | p :: ps => ps.all (fun q => q.getD i "" == p.getD i "")

/-- Embedding of `M3uPlaylist.find_common_path`.  Returns `none` where
Python raises: `min([])` (`ValueError`) when there are no songs, and
`os.path.join(*[])` (`TypeError`) when no index below the minimum part
count has all songs agreeing. -/
def find_common_path (songs : List PlaylistSong) : Option String :=
  match songs.map (fun s => pathParts s.path) with
  | [] => none
  | p :: ps =>
    let paths := p :: ps
    let mp := minParts p ps
    let common := (List.range mp).filterMap (fun i =>
      if samePartAt paths i then some (p.getD i "") else none)
    match common with
    | [] => none
    | _ => some (joinWith "\x5c" common ++ "\x5c")

/-- Embedding of `M3uPlaylist.convert_to_relative`: store the common
path, then rewrite every song path by deleting all occurrences of the
parent-escape token `".."` + backslash and then all occurrences of the
common path (Python `str.replace` with an empty replacement). -/
def convert_to_relative (pl : M3uPlaylist) : Option M3uPlaylist :=
  match find_common_path pl.songs with
  | none => none
  | some cp =>
    some { pl with
      common_path := some cp,
      songs := pl.songs.map (fun s =>
        { s with path := replaceAllS (replaceAllS s.path "..\x5c" "") cp "" }) }

/-- Embedding of `M3uPlaylist.paths_to_posix`: replace every backslash
by a forward slash in every song path. -/
def paths_to_posix (pl : M3uPlaylist) : M3uPlaylist :=
  { pl with songs := pl.songs.map (fun s =>
      { s with path := replaceAllS s.path "\x5c" "/" }) }

/-- Embedding of `M3uPlaylist.sanitize_paths`:
`convert_to_relative` then `paths_to_posix`. -/
def sanitize_paths (pl : M3uPlaylist) : Option M3uPlaylist :=
  (convert_to_relative pl).map paths_to_posix

/-! ## Parser (`src/aimp2m3u/aimp.py`) -/

/-- Embedding of class `AimpPlaylist` (summary mapping plus songs).
Python's `dict` is modelled by an insertion-ordered association list
with overwriting insertion (`insertKV`). -/
structure AimpPlaylist where
  summary : List (String × String)
  songs : List PlaylistSong
deriving DecidableEq, Repr

/-- Python `dict` assignment `d[k] = v`: overwrite the value in place if
the key exists, otherwise append the pair. -/
def insertKV : List (String × String) → String → String → List (String × String)
  | [], k, v => [(k, v)]
  | (k', v') :: rest, k, v =>
    if k' = k then (k, v) :: rest else (k', v') :: insertKV rest k v

/-- The exceptions `from_lines` can raise.  They are modelled exactly as
the Python code raises them — in particular `fileNotFound` models the
argument-less `raise FileNotFoundError()` in `find_song_path`, which
carries no payload. -/
inductive ParseErr where
  /-- `ValueError` from unpacking `line_parts[1:4]` into three names
  when a content song line has fewer than 4 pipe-separated fields. -/
  | valueError : ParseErr
  /-- `TypeError` from `os.walk(None)` when a content song line is
  reached while `current_root_path` is still `None` (the spec's
  `MalformedPlaylist` condition). -/
  | typeErrorNoneRoot : ParseErr
  /-- `FileNotFoundError()` from `find_song_path` (the spec's
  `SongNotFound` condition); the Python exception is raised with no
  arguments. -/
  | fileNotFound : ParseErr
deriving DecidableEq, Repr

/-- The filesystem collaborator: `os.walk(root)` is abstracted as a
function from a root path to the list of `(dirpath, filenames)` pairs it
enumerates (the unused `dirnames` component is omitted). -/
def Walker : Type := String → List (String × List String)

/-- Embedding of `AimpPlaylist.find_song_path`: the first directory
whose file list contains `filename` wins; the result is
`Path(dirpath).joinpath(filename)` (Windows join).  `none` models the
raised `FileNotFoundError()`. -/
def find_song_path (fs : Walker) (search_path filename : String) : Option String :=
  match (fs search_path).find? (fun d => d.2.contains filename) with
  | some d => some (d.1 ++ "\x5c" ++ filename)
  | none => none

/-- Model of Python `s.startswith(pre)`. -/
def strStartsWith (s pre : String) : Bool :=
  pre.data.isPrefixOf s.data

/-- Model of the Python slice `s[n:]` (drop the first `n` characters). -/
def strDrop (s : String) (n : Nat) : String :=
  String.mk (s.data.drop n)

/-- The loop state of `from_lines`: the summary and song accumulators,
the active root path and the current section.  The Python `section`
variable holds `None`, `"summary"` or `"content"`, modelled as an
`Option String` (field name `sect` since `section` is a Lean keyword). -/
structure ParseSt where
  summary : List (String × String)
  songs : List PlaylistSong
  root : Option String
  sect : Option String
deriving DecidableEq, Repr

/-- The initial state of the `from_lines` loop. -/
def initSt : ParseSt :=
  { summary := [], songs := [], root := none, sect := none }

/-- One iteration of the `from_lines` loop on one input line,
translated branch for branch from the Python `for` body. -/
def stepLine (fs : Walker) (st : ParseSt) (line : String) : Except ParseErr ParseSt :=
  if strContains line "SUMMARY" then .ok { st with sect := some "summary" }
  else if strContains line "CONTENT" then .ok { st with sect := some "content" }
  else if st.sect = some "summary" then
    -- `key, value = line.split("=")`: succeeds only on exactly two
    -- chunks; any other shape raises `ValueError`, which is caught and
    -- the line skipped.
    match splitOnStr '=' line with
    | [k, v] => .ok { st with summary := insertKV st.summary k v }
    | _ => .ok st
  else if st.sect = some "content" then
    if strStartsWith line "-" then .ok { st with root := some (strDrop line 1) }
    else
      let parts := splitOnStr '|' line
      if parts.length < 4 then .error .valueError
      else
        match st.root with
        | none => .error .typeErrorNoneRoot
        | some r =>
          match find_song_path fs r (pathName (parts.getD 0 "")) with
          | none => .error .fileNotFound
          | some p =>
            .ok { st with songs := st.songs ++
              [⟨p, parts.getD 1 "", parts.getD 2 "", parts.getD 3 ""⟩] }
  else .ok st

/-- Embedding of `AimpPlaylist.from_lines`: fold the loop body over the
lines; any raised exception aborts the whole parse, so the result is
either a fully constructed playlist or a single error. -/
def from_lines (fs : Walker) (lines : List String) : Except ParseErr AimpPlaylist :=
  (lines.foldlM (stepLine fs) initSt).map (fun st => ⟨st.summary, st.songs⟩)

/-! ## Reference definitions following the spec's words

For claim C4 a second formulation of occurrence removal is needed,
written the way the (amended) claim describes it: find the first
occurrence, delete it, and continue scanning from the end of the
deleted occurrence.  It is compared with the implementation model
`replaceAllCh` by `c4_remove_every_occurrence`. -/

/-- Index of the first occurrence of `pat` in `s` (`none` if absent). -/
def firstOccIdx : List Char → List Char → Option Nat
  | [], pat => if pat.isPrefixOf ([] : List Char) then some 0 else none
  | c :: rest, pat =>
    if pat.isPrefixOf (c :: rest) then some 0
    else (firstOccIdx rest pat).map (fun i => i + 1)

/-- Fuel-indexed worker for `removeOcc`. -/
def removeOccGo (pat : List Char) : Nat → List Char → List Char
  | 0, s => s
  | fuel + 1, s =>
    match firstOccIdx s pat with
    | none => s
    | some i => s.take i ++ removeOccGo pat fuel (s.drop (i + pat.length))

/-- Claim-side removal of every occurrence of `pat`, phrased via first
occurrences: delete the first occurrence and resume right after it. -/
def removeOcc (s pat : List Char) : List Char :=
  removeOccGo pat s.length s

/-- String-level wrapper for `removeOcc`. -/
def removeOccS (s pat : String) : String :=
  String.mk (removeOcc s.data pat.data)

/-! ## Infrastructure lemmas -/

theorem hasSubstrCh_mem {s pat : List Char} (h : hasSubstrCh s pat = true) :
    ∀ c ∈ pat, c ∈ s := by
  induction s with
  | nil =>
    intro c hc
    simp [hasSubstrCh, List.isEmpty_iff] at h
    simp [h] at hc
  | cons a rest ih =>
    intro c hc
    simp only [hasSubstrCh, Bool.or_eq_true] at h
    rcases h with h | h
    · exact (List.isPrefixOf_iff_prefix.mp h).subset hc
    · exact List.mem_cons_of_mem a (ih h c hc)

theorem hasSubstrCh_false_of_length {s pat : List Char}
    (h : s.length < pat.length) : hasSubstrCh s pat = false := by
  induction s with
  | nil =>
    cases pat with
    | nil => simp at h
    | cons p ps => simp [hasSubstrCh]
  | cons a rest ih =>
    simp only [hasSubstrCh, Bool.or_eq_false_iff]
    constructor
    · by_contra hp
      rw [Bool.not_eq_false] at hp
      have := (List.isPrefixOf_iff_prefix.mp hp).length_le
      omega
    · exact ih (by simp at h ⊢; omega)

theorem replaceGo_of_no_occ {pat rep s : List Char} {fuel : Nat}
    (hf : s.length ≤ fuel) (h : hasSubstrCh s pat = false) :
    replaceGo pat rep fuel s = s := by
  induction fuel generalizing s with
  | zero =>
    cases s with
    | nil => rfl
    | cons c rest => simp at hf
  | succ n ih =>
    cases s with
    | nil => rfl
    | cons c rest =>
      simp only [hasSubstrCh, Bool.or_eq_false_iff] at h
      rw [replaceGo, if_neg (by simp [h.1]), ih (by simp at hf; omega) h.2]

theorem replaceAllCh_of_no_occ {pat rep s : List Char}
    (h : hasSubstrCh s pat = false) : replaceAllCh s pat rep = s :=
  replaceGo_of_no_occ (Nat.le_refl _) h

theorem replaceAllCh_of_long {pat rep s : List Char}
    (h : s.length < pat.length) : replaceAllCh s pat rep = s :=
  replaceAllCh_of_no_occ (hasSubstrCh_false_of_length h)

theorem mem_replaceGo_single {c d : Char} {fuel : Nat} {s : List Char}
    (hf : s.length ≤ fuel) {x : Char} (hx : x ∈ replaceGo [c] [d] fuel s) :
    x = d ∨ (x ∈ s ∧ x ≠ c) := by
  induction fuel generalizing s with
  | zero =>
    cases s with
    | nil => simp [replaceGo] at hx
    | cons a rest => simp at hf
  | succ n ih =>
    cases s with
    | nil => simp [replaceGo] at hx
    | cons a rest =>
      by_cases hac : ([c] : List Char).isPrefixOf (a :: rest)
      · rw [replaceGo, if_pos ⟨by simp, hac⟩] at hx
        have hdrop : List.drop ([c] : List Char).length (a :: rest) = rest := by
          simp
        rw [hdrop] at hx
        simp only [List.cons_append, List.nil_append, List.mem_cons] at hx
        rcases hx with hx | hx
        · exact Or.inl hx
        · rcases ih (by simp at hf; omega) hx with h | h
          · exact Or.inl h
          · exact Or.inr ⟨List.mem_cons_of_mem a h.1, h.2⟩
      · rw [replaceGo, if_neg (by simp [hac])] at hx
        have hne : a ≠ c := by
          intro hh
          exact hac (by simp [hh, List.isPrefixOf])
        rcases List.mem_cons.mp hx with hx | hx
        · exact Or.inr ⟨by simp [hx], by rw [hx]; exact hne⟩
        · rcases ih (by simp at hf; omega) hx with h | h
          · exact Or.inl h
          · exact Or.inr ⟨List.mem_cons_of_mem a h.1, h.2⟩

/-- After `paths_to_posix`'s replacement, no backslash remains. -/
theorem backslash_not_mem_posix (s : List Char) :
    '\x5c' ∉ replaceAllCh s ['\x5c'] ['/'] := by
  intro hx
  rcases mem_replaceGo_single (Nat.le_refl _) hx with h | h
  · exact absurd h (by decide)
  · exact h.2 rfl

theorem hasSubstrCh_false_of_not_mem {s pat : List Char} {c : Char}
    (hc : c ∈ pat) (hs : c ∉ s) : hasSubstrCh s pat = false := by
  by_contra h
  rw [Bool.not_eq_false] at h
  exact hs (hasSubstrCh_mem h c hc)

theorem splitOnChar_ne_nil (c : Char) (l : List Char) : splitOnChar c l ≠ [] := by
  cases l with
  | nil => simp [splitOnChar]
  | cons a rest =>
    rw [splitOnChar]
    cases splitOnChar c rest with
    | nil => simp
    | cons x xs =>
      by_cases h : a = c <;> simp [h]

theorem splitOnChar_of_not_mem {c : Char} {l : List Char} (h : c ∉ l) :
    splitOnChar c l = [l] := by
  induction l with
  | nil => rfl
  | cons a rest ih =>
    have ha : a ≠ c := fun hh => h (by simp [hh])
    rw [splitOnChar, ih (fun hh => h (List.mem_cons_of_mem a hh))]
    simp [ha]

theorem splitOnChar_append_cons {c : Char} {a rest : List Char} (h : c ∉ a) :
    splitOnChar c (a ++ c :: rest) = a :: splitOnChar c rest := by
  induction a with
  | nil =>
    rw [List.nil_append, splitOnChar]
    cases hs : splitOnChar c rest with
    | nil => exact absurd hs (splitOnChar_ne_nil c rest)
    | cons x xs => simp
  | cons y a' ih =>
    have hy : y ≠ c := fun hh => h (by simp [hh])
    rw [List.cons_append, splitOnChar,
      ih (fun hh => h (List.mem_cons_of_mem y hh))]
    simp [hy]

theorem splitOnChar_length (c : Char) (l : List Char) :
    (splitOnChar c l).length = l.count c + 1 := by
  induction l with
  | nil => rfl
  | cons a rest ih =>
    rw [splitOnChar]
    cases hs : splitOnChar c rest with
    | nil => exact absurd hs (splitOnChar_ne_nil c rest)
    | cons x xs =>
      rw [hs] at ih
      simp only [List.length_cons] at ih
      dsimp only
      by_cases h : a = c
      · subst h
        rw [if_pos rfl, List.count_cons_self]
        simp only [List.length_cons]
        omega
      · rw [if_neg h, List.count_cons_of_ne (Ne.symm h)]
        simp only [List.length_cons]
        omega

theorem splitOnChar_joinWith {c : Char} {sep : String} (hs : sep.data = [c]) :
    ∀ ps : List String, ps ≠ [] → (∀ p ∈ ps, c ∉ p.data) →
      splitOnChar c (joinWith sep ps).data = ps.map String.data
  | [], hne, _ => absurd rfl hne
  | [p], _, hfree => by
    rw [joinWith, List.map_singleton]
    exact splitOnChar_of_not_mem (hfree p (by simp))
  | p :: q :: ps, _, hfree => by
    rw [joinWith, String.data_append, String.data_append, hs,
      List.append_assoc, List.singleton_append,
      splitOnChar_append_cons (hfree p (by simp)),
      splitOnChar_joinWith hs (q :: ps) (by simp)
        (fun r hr => hfree r (List.mem_cons_of_mem p hr))]
    rfl

theorem minParts_le_head (p : List String) (ps : List (List String)) :
    minParts p ps ≤ p.length := by
  suffices h : ∀ acc, List.foldl (fun m q => Nat.min m q.length) acc ps ≤ acc by
    exact h p.length
  induction ps with
  | nil => intro acc; exact Nat.le_refl acc
  | cons q qs ih =>
    intro acc
    calc List.foldl (fun m q => Nat.min m q.length) (Nat.min acc q.length) qs
        ≤ Nat.min acc q.length := ih _
      _ ≤ acc := Nat.min_le_left _ _

theorem le_minParts {n : Nat} {p : List String} {ps : List (List String)}
    (hp : n ≤ p.length) (hps : ∀ q ∈ ps, n ≤ q.length) :
    n ≤ minParts p ps := by
  suffices h : ∀ (l : List (List String)) (acc : Nat), n ≤ acc →
      (∀ q ∈ l, n ≤ q.length) →
      n ≤ List.foldl (fun m q => Nat.min m q.length) acc l by
    exact h ps p.length hp hps
  intro l
  induction l with
  | nil => intro acc ha _; exact ha
  | cons q qs ih =>
    intro acc ha hq
    exact ih _ (Nat.le_min.mpr ⟨ha, hq q (by simp)⟩)
      (fun r hr => hq r (List.mem_cons_of_mem q hr))

theorem map_getD_range {α : Type} (l : List α) (d : α) :
    (List.range l.length).map (fun i => l.getD i d) = l := by
  induction l with
  | nil => rfl
  | cons a t ih =>
    rw [List.length_cons, List.range_succ_eq_map, List.map_cons, List.map_map]
    refine congrArg (a :: ·) ?_
    calc List.map ((fun i => (a :: t).getD i d) ∘ Nat.succ) (List.range t.length)
        = List.map (fun i => t.getD i d) (List.range t.length) := by
          refine List.map_congr_left ?_
          intro i _
          simp [List.getD_cons_succ]
      _ = t := ih

theorem getD_of_take3 {q : List String} {a b c : String}
    (h : q.take 3 = [a, b, c]) :
    q.getD 0 "" = a ∧ q.getD 1 "" = b ∧ q.getD 2 "" = c := by
  have hq := List.take_append_drop 3 q
  rw [h] at hq
  rw [← hq]
  simp [List.getD]

example : pathParts "a\x5cb\x5cc" = ["a", "b", "c"] := by decide
example : pathParts "...\x5c.\x5c" = ["..."] := by decide
example : find_common_path
    [⟨"a\x5cb\x5cc\x5cx\x5ce", "", "", ""⟩,
     ⟨"a\x5cb\x5cc\x5cy\x5ce", "", "", ""⟩] =
    some "a\x5cb\x5cc\x5ce\x5c" := by decide
example : replaceAllS "a\x5cx\x5ca\x5cy" "a\x5c" "" = "x\x5cy" := by decide
example : replaceAllS "...\x5c.\x5c" "..\x5c" "" = "..\x5c" := by decide
example : from_lines (fun _ => []) ["SUMMARY", "a=b=c"] = .ok ⟨[], []⟩ := rfl
example : from_lines (fun _ => []) ["SUMMARY", "a=b"] = .ok ⟨[("a", "b")], []⟩ := rfl
example : from_lines (fun _ => []) ["CONTENT", "x.mp3|t|ar|al"] =
    .error .typeErrorNoneRoot := rfl
example : from_lines (fun _ => []) ["CONTENT", "-r", "x.mp3|t|ar|al"] =
    .error .fileNotFound := rfl
example : from_lines (fun r => if r = "r" then [("r\x5cd", ["x.mp3"])] else [])
    ["CONTENT", "-r", "s\x5cx.mp3|t|ar|al"] =
    .ok ⟨[], [⟨"r\x5cd\x5cx.mp3", "t", "ar", "al"⟩]⟩ := rfl
example : sanitize_paths ⟨"n.m3u", [⟨"a\x5cb", "t", "ar", "al"⟩], none⟩ =
    some ⟨"n.m3u", [⟨"a/b", "t", "ar", "al"⟩], some "a\x5cb\x5c"⟩ := rfl
example : (sanitize_paths ⟨"n.m3u",
    [⟨"a\x5cx", "", "", ""⟩, ⟨"a\x5cy", "", "", ""⟩], none⟩).map
    (fun q => q.songs.map (fun s => s.path)) = some ["x", "y"] := rfl
example : (sanitize_paths ⟨"n.m3u", [⟨"x", "", "", ""⟩, ⟨"y", "", "", ""⟩], none⟩)
    = none := rfl
example : (sanitize_paths ⟨"n.m3u", [⟨"...\x5c.\x5c", "", "", ""⟩], none⟩).map
    (fun q => q.songs.map (fun s => s.path)) = some ["../"] := rfl


/-! ## Parser lemmas and claims -/

/-- If the lines before `line` drive the parser to state `st` and the
step on `line` raises, the whole parse aborts with that error no matter
what follows. -/
theorem from_lines_error_at {fs : Walker} {pre : List String} {st : ParseSt}
    {line : String} {e : ParseErr} (rest : List String)
    (hpre : List.foldlM (stepLine fs) initSt pre = .ok st)
    (hstep : stepLine fs st line = .error e) :
    from_lines fs (pre ++ line :: rest) = .error e := by
  rw [from_lines, List.foldlM_append, hpre]
  show (List.foldlM (stepLine fs) st (line :: rest)).map
    (fun st => AimpPlaylist.mk st.summary st.songs) = .error e
  rw [List.foldlM_cons, hstep]
  rfl

/-- Claim C10 (confirmed): a line containing `"SUMMARY"` anywhere is
treated purely as a switch into the summary section, and a line
containing `"CONTENT"` (but not `"SUMMARY"`) purely as a switch into
the content section — whatever the current state is, the step leaves
summary pairs, songs and root path untouched and only sets the
section. -/
theorem c10_marker_lines_only_switch (fs : Walker) (st : ParseSt) (line : String) :
    (strContains line "SUMMARY" = true →
      stepLine fs st line = .ok { st with sect := some "summary" }) ∧
    (strContains line "SUMMARY" = false → strContains line "CONTENT" = true →
      stepLine fs st line = .ok { st with sect := some "content" }) := by
  constructor
  · intro h
    rw [stepLine, if_pos h]
  · intro h1 h2
    rw [stepLine, if_neg (by simp [h1]), if_pos h2]

/-- Witness for C10: a root-marker-shaped line containing `SUMMARY` and
a song-record-shaped line containing `CONTENT`, both met inside the
content section, only switch the section. -/
theorem c10_marker_lines_only_switch_witness :
    (strContains "-SUMMARY\x5cme" "SUMMARY" = true ∧
      stepLine (fun _ => []) ⟨[("k", "v")], [], some "r", some "content"⟩
        "-SUMMARY\x5cme" =
        .ok ⟨[("k", "v")], [], some "r", some "summary"⟩) ∧
    (strContains "CONTENT.mp3|t|a|b" "SUMMARY" = false ∧
      strContains "CONTENT.mp3|t|a|b" "CONTENT" = true ∧
      stepLine (fun _ => []) ⟨[("k", "v")], [], some "r", some "summary"⟩
        "CONTENT.mp3|t|a|b" =
        .ok ⟨[("k", "v")], [], some "r", some "content"⟩) :=
  ⟨⟨by decide,
    (c10_marker_lines_only_switch (fun _ => [])
      ⟨[("k", "v")], [], some "r", some "content"⟩ "-SUMMARY\x5cme").1
      (by decide)⟩,
   ⟨by decide, by decide,
    (c10_marker_lines_only_switch (fun _ => [])
      ⟨[("k", "v")], [], some "r", some "summary"⟩ "CONTENT.mp3|t|a|b").2
      (by decide) (by decide)⟩⟩

/-- Claim C6 (confirmed): a content-section song record reached while no
root-path marker has set a root makes the whole parse fail — this is the
spec's `MalformedPlaylist` condition, realised as the `TypeError` from
`os.walk(None)` — and the filesystem is never searched with the null
root (the error branch does not consult `fs`). -/
theorem c6_song_before_root_aborts (fs : Walker) (pre : List String)
    (st : ParseSt) (line : String) (rest : List String)
    (hpre : List.foldlM (stepLine fs) initSt pre = .ok st)
    (hsec : st.sect = some "content")
    (hroot : st.root = none)
    (h1 : strContains line "SUMMARY" = false)
    (h2 : strContains line "CONTENT" = false)
    (h3 : strStartsWith line "-" = false)
    (h4 : 4 ≤ (splitOnStr '|' line).length) :
    stepLine fs st line = .error ParseErr.typeErrorNoneRoot ∧
    from_lines fs (pre ++ line :: rest) = .error ParseErr.typeErrorNoneRoot := by
  have hstep : stepLine fs st line = .error ParseErr.typeErrorNoneRoot := by
    rw [stepLine, if_neg (by simp [h1]), if_neg (by simp [h2]),
      if_neg (by simp [hsec]), if_pos hsec, if_neg (by simp [h3]),
      if_neg (by omega), hroot]
  exact ⟨hstep, from_lines_error_at rest hpre hstep⟩

/-- Witness for C6: a well-shaped song record directly after the
`CONTENT` marker, with no root marker in between. -/
theorem c6_song_before_root_aborts_witness :
    List.foldlM (stepLine (fun _ => [])) initSt ["#CONTENT#"] =
      .ok ⟨[], [], none, some "content"⟩ ∧
    from_lines (fun _ => []) (["#CONTENT#"] ++ "x.mp3|t|ar|al" :: ["junk"]) =
      .error ParseErr.typeErrorNoneRoot :=
  ⟨rfl,
   (c6_song_before_root_aborts (fun _ => []) ["#CONTENT#"]
      ⟨[], [], none, some "content"⟩ "x.mp3|t|ar|al" ["junk"]
      rfl rfl rfl (by decide) (by decide) (by decide) (by decide)).2⟩

/-- Counterexample for C5: two parses that differ in the unresolvable
filename and in the search root produce the *same* error value — the
code raises `FileNotFoundError()` with no arguments, so the failure
carries neither the failing filename nor the search root. -/
theorem c5_no_payload_counterexample :
    from_lines (fun _ => []) ["CONTENT", "-r1", "x.mp3|t|ar|al"] =
      .error ParseErr.fileNotFound ∧
    from_lines (fun _ => []) ["CONTENT", "-r2", "y.mp3|t|ar|al"] =
      .error ParseErr.fileNotFound ∧
    from_lines (fun _ => []) ["CONTENT", "-r1", "x.mp3|t|ar|al"] =
      from_lines (fun _ => []) ["CONTENT", "-r2", "y.mp3|t|ar|al"] :=
  ⟨rfl, rfl, rfl⟩

/-- Claim C5 (amended): a content song record whose filename is not
found anywhere under the active search root aborts the whole parse with
the `SongNotFound` condition (`FileNotFoundError`, raised without any
payload), and no playlist value — in particular no partial playlist —
is produced, whatever lines follow. -/
theorem c5_song_not_found_aborts (fs : Walker) (pre : List String)
    (st : ParseSt) (r : String) (line : String) (rest : List String)
    (hpre : List.foldlM (stepLine fs) initSt pre = .ok st)
    (hsec : st.sect = some "content")
    (hroot : st.root = some r)
    (h1 : strContains line "SUMMARY" = false)
    (h2 : strContains line "CONTENT" = false)
    (h3 : strStartsWith line "-" = false)
    (h4 : 4 ≤ (splitOnStr '|' line).length)
    (hfind : find_song_path fs r (pathName ((splitOnStr '|' line).getD 0 "")) =
      none) :
    from_lines fs (pre ++ line :: rest) = .error ParseErr.fileNotFound := by
  refine from_lines_error_at rest hpre ?_
  rw [stepLine, if_neg (by simp [h1]), if_neg (by simp [h2]),
    if_neg (by simp [hsec]), if_pos hsec, if_neg (by simp [h3]),
    if_neg (by omega), hroot]
  dsimp only
  rw [hfind]

/-- Witness for C5: a root containing only `other.mp3` cannot resolve
`x.mp3`; the parse of the whole line list aborts with the bare
`FileNotFoundError`. -/
theorem c5_song_not_found_aborts_witness :
    List.foldlM (stepLine (fun q => if q = "r" then [("r\x5cd", ["other.mp3"])] else []))
      initSt ["#CONTENT#", "-r"] = .ok ⟨[], [], some "r", some "content"⟩ ∧
    find_song_path (fun q => if q = "r" then [("r\x5cd", ["other.mp3"])] else [])
      "r" (pathName ((splitOnStr '|' "s\x5cx.mp3|t|ar|al").getD 0 "")) = none ∧
    from_lines (fun q => if q = "r" then [("r\x5cd", ["other.mp3"])] else [])
      (["#CONTENT#", "-r"] ++ "s\x5cx.mp3|t|ar|al" :: ["junk"]) =
      .error ParseErr.fileNotFound :=
  ⟨rfl, rfl,
   c5_song_not_found_aborts
     (fun q => if q = "r" then [("r\x5cd", ["other.mp3"])] else [])
     ["#CONTENT#", "-r"] ⟨[], [], some "r", some "content"⟩ "r"
     "s\x5cx.mp3|t|ar|al" ["junk"] rfl rfl rfl (by decide) (by decide)
     (by decide) (by decide) rfl⟩

/-- Counterexample for C7: in the summary section a line with two `=`
characters is skipped entirely (Python's `line.split("=")` yields three
chunks and the two-name unpacking raises `ValueError`, which is caught
and the line skipped), instead of contributing the pair
`("a", "b=c")` split at the first `=`. -/
theorem c7_two_equals_skipped_counterexample :
    from_lines (fun _ => []) ["SUMMARY", "a=b=c"] = .ok ⟨[], []⟩ ∧
    ([] : List (String × String)) ≠ [("a", "b=c")] :=
  ⟨rfl, by decide⟩

/-- Claim C7 (amended): in the summary section a line consisting of a
key, one `=` and a value that both contain no further `=` populates the
summary with that pair, and a line whose number of `=` characters is
not exactly one (zero, or two and more) is skipped without error. -/
theorem c7_summary_line_split (fs : Walker) (st : ParseSt) (line k v : String)
    (hsec : st.sect = some "summary")
    (h1 : strContains line "SUMMARY" = false)
    (h2 : strContains line "CONTENT" = false) :
    (line = k ++ "=" ++ v → '=' ∉ k.data → '=' ∉ v.data →
      stepLine fs st line = .ok { st with summary := insertKV st.summary k v }) ∧
    (line.data.count '=' ≠ 1 → stepLine fs st line = .ok st) := by
  constructor
  · intro hline hk hv
    have hdata : line.data = k.data ++ '=' :: v.data := by
      rw [hline, String.data_append, String.data_append, List.append_assoc]
      rfl
    have hsplit : splitOnStr '=' line = [k, v] := by
      rw [splitOnStr, hdata, splitOnChar_append_cons hk,
        splitOnChar_of_not_mem hv]
      rfl
    rw [stepLine, if_neg (by simp [h1]), if_neg (by simp [h2]), if_pos hsec,
      hsplit]
  · intro hcount
    have hlen : (splitOnChar '=' line.data).length ≠ 2 := by
      rw [splitOnChar_length]
      omega
    rw [stepLine, if_neg (by simp [h1]), if_neg (by simp [h2]), if_pos hsec]
    rcases hs : splitOnStr '=' line with _ | ⟨x, _ | ⟨y, _ | ⟨z, zs⟩⟩⟩
    · rfl
    · rfl
    · exact absurd (by rw [splitOnStr] at hs; simpa using congrArg List.length hs)
        (by omega)
    · rfl

/-- Witness for C7: `"k=v"` adds the pair `("k", "v")`; `"a=b=c"` (two
`=`) and `""` (no `=`) are both skipped. -/
theorem c7_summary_line_split_witness :
    (stepLine (fun _ => []) ⟨[], [], none, some "summary"⟩ "k=v" =
      .ok ⟨[("k", "v")], [], none, some "summary"⟩) ∧
    (stepLine (fun _ => []) ⟨[], [], none, some "summary"⟩ "a=b=c" =
      .ok ⟨[], [], none, some "summary"⟩) ∧
    (stepLine (fun _ => []) ⟨[], [], none, some "summary"⟩ "" =
      .ok ⟨[], [], none, some "summary"⟩) :=
  ⟨(c7_summary_line_split (fun _ => []) ⟨[], [], none, some "summary"⟩
      "k=v" "k" "v" rfl (by decide) (by decide)).1 rfl (by decide) (by decide),
   (c7_summary_line_split (fun _ => []) ⟨[], [], none, some "summary"⟩
      "a=b=c" "" "" rfl (by decide) (by decide)).2 (by decide),
   (c7_summary_line_split (fun _ => []) ⟨[], [], none, some "summary"⟩
      "" "" "" rfl (by decide) (by decide)).2 (by decide)⟩

/-! ## Common-path claims -/

/-- Counterexample for C8: for the single song `"a\b"` the claim
predicts common path `"a\"` (filename dropped), but `find_common_path`
trivially agrees with itself at every index including the last, so it
returns the full path `"a\b\"` with the filename included. -/
theorem c8_single_song_counterexample :
    pathParts "a\x5cb" = ["a", "b"] ∧
    find_common_path [⟨"a\x5cb", "t", "ar", "al"⟩] = some "a\x5cb\x5c" ∧
    some "a\x5cb\x5c" ≠ some ("a" ++ "\x5c") :=
  ⟨by decide, by decide, by decide⟩

/-- Claim C8 (amended): for a playlist with exactly one song whose path
has at least two components, `find_common_path` returns ALL of the
path's components — including the final filename component — joined by
the separator with one trailing separator appended. -/
theorem c8_single_song_common_path (song : PlaylistSong) (comps : List String)
    (hparts : pathParts song.path = comps) (hlen : 2 ≤ comps.length) :
    find_common_path [song] = some (joinWith "\x5c" comps ++ "\x5c") := by
  cases comps with
  | nil => simp at hlen
  | cons c cs =>
    have hmap : [song].map (fun s => pathParts s.path) = [c :: cs] := by
      simp [hparts]
    rw [find_common_path, hmap]
    have hfm : (List.range (minParts (c :: cs) [])).filterMap
        (fun i => if samePartAt [c :: cs] i
          then some ((c :: cs).getD i "") else none) = c :: cs := by
      have h1 : minParts (c :: cs) ([] : List (List String)) =
          (c :: cs).length := rfl
      rw [h1,
        List.filterMap_congr
          (fun i _ => if_pos (by simp [samePartAt]) :
            ∀ i ∈ List.range (c :: cs).length, _),
        show (fun i => some ((c :: cs).getD i "")) =
          some ∘ (fun i => (c :: cs).getD i "") from rfl,
        List.filterMap_eq_map, map_getD_range]
    dsimp only
    rw [hfm]

/-- Witness for C8: the compiled theorem applied to the three-component
single song `"a\b\c"`. -/
theorem c8_single_song_common_path_witness :
    pathParts "a\x5cb\x5cc" = ["a", "b", "c"] ∧
    2 ≤ (["a", "b", "c"] : List String).length ∧
    find_common_path [⟨"a\x5cb\x5cc", "t", "ar", "al"⟩] =
      some (joinWith "\x5c" ["a", "b", "c"] ++ "\x5c") :=
  ⟨by decide, by decide,
   c8_single_song_common_path ⟨"a\x5cb\x5cc", "t", "ar", "al"⟩
     ["a", "b", "c"] (by decide) (by decide)⟩

/-- Counterexample for C1: the two songs `"a\b\c\x\e"` and
`"a\b\c\y\e"` share exactly `[a, b, c]` as a strict common prefix (both
have at least 4 components and they disagree at index 3), yet
`find_common_path` keeps scanning past the divergence, picks up the
agreeing component `"e"` at index 4 and returns `"a\b\c\e\"`, not
`"a\b\c\"`. -/
theorem c1_continues_past_divergence_counterexample :
    (∀ s ∈ ([⟨"a\x5cb\x5cc\x5cx\x5ce", "", "", ""⟩,
             ⟨"a\x5cb\x5cc\x5cy\x5ce", "", "", ""⟩] : List PlaylistSong),
      (pathParts s.path).take 3 = ["a", "b", "c"] ∧
      4 ≤ (pathParts s.path).length) ∧
    (pathParts "a\x5cb\x5cc\x5cx\x5ce").getD 3 "" ≠
      (pathParts "a\x5cb\x5cc\x5cy\x5ce").getD 3 "" ∧
    find_common_path [⟨"a\x5cb\x5cc\x5cx\x5ce", "", "", ""⟩,
                      ⟨"a\x5cb\x5cc\x5cy\x5ce", "", "", ""⟩] =
      some "a\x5cb\x5cc\x5ce\x5c" ∧
    some "a\x5cb\x5cc\x5ce\x5c" ≠ some (joinWith "\x5c" ["a", "b", "c"] ++ "\x5c") :=
  ⟨by decide, by decide, by decide, by decide⟩

/-- Claim C1 (amended): if every song's path decomposes with exactly
`[a, b, c]` as its first three components and has at least 4
components, and at EVERY index from 3 up to the minimum component count
the songs fail to all agree, then `find_common_path` returns exactly
`a`, `b`, `c` joined by the separator with one trailing separator.
(The extra "every later index" hypothesis is forced: the loop keeps
scanning past the first disagreement and appends any later component on
which all songs happen to agree again.) -/
theorem c1_strict_common_prefix (s0 : PlaylistSong) (ss : List PlaylistSong)
    (a b c : String)
    (hpre : ∀ s ∈ s0 :: ss, (pathParts s.path).take 3 = [a, b, c] ∧
      4 ≤ (pathParts s.path).length)
    (hdiv : ∀ i, 3 ≤ i →
      i < minParts (pathParts s0.path) (ss.map (fun s => pathParts s.path)) →
      samePartAt ((s0 :: ss).map (fun s => pathParts s.path)) i = false) :
    find_common_path (s0 :: ss) = some (joinWith "\x5c" [a, b, c] ++ "\x5c") := by
  have hmap : (s0 :: ss).map (fun s => pathParts s.path) =
      pathParts s0.path :: ss.map (fun s => pathParts s.path) := by
    simp
  set p := pathParts s0.path with hp_def
  set ps := ss.map (fun s => pathParts s.path) with hps_def
  rw [hmap] at hdiv
  have hp := hpre s0 (by simp)
  have hqs : ∀ q ∈ ps, q.take 3 = [a, b, c] ∧ 4 ≤ q.length := by
    intro q hq
    rcases List.mem_map.mp hq with ⟨s, hs, rfl⟩
    exact hpre s (List.mem_cons_of_mem s0 hs)
  have hmp4 : 4 ≤ minParts p ps :=
    le_minParts hp.2 (fun q hq => (hqs q hq).2)
  have hsame : ∀ i, i < 3 → samePartAt (p :: ps) i = true := by
    intro i hi
    have e0 := getD_of_take3 hp.1
    show ps.all (fun q => q.getD i "" == p.getD i "") = true
    refine List.all_eq_true.mpr ?_
    intro q hq
    have e1 := getD_of_take3 (hqs q hq).1
    interval_cases i
    · rw [e0.1, e1.1]; exact beq_self_eq_true a
    · rw [e0.2.1, e1.2.1]; exact beq_self_eq_true b
    · rw [e0.2.2, e1.2.2]; exact beq_self_eq_true c
  have e0 := getD_of_take3 hp.1
  have hcommon : (List.range (minParts p ps)).filterMap
      (fun i => if samePartAt (p :: ps) i then some (p.getD i "") else none) =
      [a, b, c] := by
    have h3 : (minParts p ps - 3) + 3 = minParts p ps := by omega
    have hsplit : List.range (minParts p ps) =
        List.range' 0 3 1 ++ List.range' 3 (minParts p ps - 3) 1 := by
      calc List.range (minParts p ps)
          = List.range' 0 (minParts p ps) 1 := List.range_eq_range' _
        _ = List.range' 0 ((minParts p ps - 3) + 3) 1 := by rw [h3]
        _ = List.range' 0 3 1 ++ List.range' (0 + 1 * 3) (minParts p ps - 3) 1 :=
            (List.range'_append 0 3 (minParts p ps - 3) 1).symm
        _ = List.range' 0 3 1 ++ List.range' 3 (minParts p ps - 3) 1 := by
            norm_num
    rw [hsplit, List.filterMap_append]
    have hfirst : (List.range' 0 3 1).filterMap
        (fun i => if samePartAt (p :: ps) i then some (p.getD i "") else none) =
        [a, b, c] := by
      have r3 : List.range' 0 3 1 = [0, 1, 2] := rfl
      rw [r3]
      simp only [List.filterMap_cons, if_pos (hsame 0 (by omega)),
        if_pos (hsame 1 (by omega)), if_pos (hsame 2 (by omega)),
        List.filterMap_nil, e0.1, e0.2.1, e0.2.2]
    have hsecond : (List.range' 3 (minParts p ps - 3) 1).filterMap
        (fun i => if samePartAt (p :: ps) i then some (p.getD i "") else none) =
        [] := by
      refine List.filterMap_eq_nil_iff.mpr ?_
      intro i hi
      rcases List.mem_range'_1.mp hi with ⟨hi1, hi2⟩
      rw [if_neg ?_]
      rw [hdiv i hi1 (by omega)]
      exact Bool.false_ne_true
    rw [hfirst, hsecond, List.append_nil]
  rw [find_common_path, hmap]
  dsimp only
  rw [hcommon]

/-- Witness for C1: two songs that disagree at index 3 (their only
index past the prefix), so the amended divergence hypothesis holds and
the common path is exactly `"a\b\c\"`. -/
theorem c1_strict_common_prefix_witness :
    (∀ s ∈ ([⟨"a\x5cb\x5cc\x5cx", "", "", ""⟩,
             ⟨"a\x5cb\x5cc\x5cy", "", "", ""⟩] : List PlaylistSong),
      (pathParts s.path).take 3 = ["a", "b", "c"] ∧
      4 ≤ (pathParts s.path).length) ∧
    find_common_path [⟨"a\x5cb\x5cc\x5cx", "", "", ""⟩,
                      ⟨"a\x5cb\x5cc\x5cy", "", "", ""⟩] =
      some (joinWith "\x5c" ["a", "b", "c"] ++ "\x5c") :=
  ⟨by decide,
   c1_strict_common_prefix ⟨"a\x5cb\x5cc\x5cx", "", "", ""⟩
     [⟨"a\x5cb\x5cc\x5cy", "", "", ""⟩] "a" "b" "c" (by decide)
     (fun i h1 h2 => by
       have h4 : minParts
           (pathParts (PlaylistSong.mk "a\x5cb\x5cc\x5cx" "" "" "").path)
           (List.map (fun s => pathParts s.path)
             [PlaylistSong.mk "a\x5cb\x5cc\x5cy" "" "" ""]) = 4 := by decide
       have h2' : i < 4 := h4 ▸ h2
       have h3 : i = 3 := by omega
       subst h3
       decide)⟩

/-! ## Serializer claim -/

/-- A separator-joined list of non-empty strings is non-empty. -/
theorem joinWith_ne_empty {sep : String} : ∀ {P : List String}, P ≠ [] →
    (∀ p ∈ P, p ≠ "") → joinWith sep P ≠ ""
  | [], h, _ => absurd rfl h
  | [p], _, hh => by rw [joinWith]; exact hh p (by simp)
  | p :: q :: ps, _, hh => by
    rw [joinWith]
    intro hemp
    have hd := congrArg String.data hemp
    rw [String.data_append, String.data_append] at hd
    have hp : p.data = [] := by
      rcases List.append_eq_nil.mp hd with ⟨h1, _⟩
      exact (List.append_eq_nil.mp h1).1
    exact hh p (by simp) (String.ext hp)

/-- Counterexample for C9: a song whose path contains a newline makes
the rendered output two lines long although the playlist has one song,
so "line count equals song count" does not hold for every playlist. -/
theorem c9_newline_in_path_counterexample :
    m3u_str ⟨"n.m3u", [⟨"x\ny", "", "", ""⟩], none⟩ = "x\ny" ∧
    lineCount "x\ny" = 2 ∧
    ([⟨"x\ny", "", "", ""⟩] : List PlaylistSong).length = 1 ∧
    (2 : Nat) ≠ 1 :=
  ⟨rfl, by decide, rfl, by decide⟩

/-- Claim C9 (amended): the serializer returns exactly the songs' paths
joined by single newlines with no header and no trailing newline, so —
provided every song path is non-empty and contains no newline itself —
the number of lines of the output equals the number of songs, with zero
songs giving the empty string (zero lines). -/
theorem c9_render_line_count (pl : M3uPlaylist)
    (h : ∀ s ∈ pl.songs, s.path ≠ "" ∧ '\n' ∉ s.path.data) :
    lineCount (m3u_str pl) = pl.songs.length := by
  rcases hsongs : pl.songs with _ | ⟨s, ss⟩
  · rw [m3u_str, hsongs]; rfl
  · rw [m3u_str, hsongs]
    have hmem : ∀ p ∈ (s :: ss).map (fun t => t.path),
        p ≠ "" ∧ '\n' ∉ p.data := by
      intro p hp
      rcases List.mem_map.mp hp with ⟨t, ht, rfl⟩
      exact h t (by rw [hsongs]; exact ht)
    have hsplit := splitOnChar_joinWith
      (show ("\n" : String).data = ['\n'] from rfl)
      ((s :: ss).map (fun t => t.path)) (by simp) (fun p hp => (hmem p hp).2)
    have hne : joinWith "\n" ((s :: ss).map (fun t => t.path)) ≠ "" :=
      joinWith_ne_empty (by simp) (fun p hp => (hmem p hp).1)
    rw [lineCount, if_neg hne, hsplit]
    simp

/-- Witness for C9: a two-song playlist with newline-free paths renders
as two lines. -/
theorem c9_render_line_count_witness :
    (∀ s ∈ ([⟨"a/b", "", "", ""⟩, ⟨"c", "", "", ""⟩] : List PlaylistSong),
      s.path ≠ "" ∧ '\n' ∉ s.path.data) ∧
    lineCount (m3u_str ⟨"n.m3u", [⟨"a/b", "", "", ""⟩, ⟨"c", "", "", ""⟩], none⟩) =
      ([⟨"a/b", "", "", ""⟩, ⟨"c", "", "", ""⟩] : List PlaylistSong).length :=
  ⟨by decide,
   c9_render_line_count ⟨"n.m3u", [⟨"a/b", "", "", ""⟩, ⟨"c", "", "", ""⟩], none⟩
     (by decide)⟩

/-! ## Normalization claims -/

/-- Every common path produced by `find_common_path` contains a
backslash (it ends with the appended trailing separator). -/
theorem backslash_mem_common_path {songs : List PlaylistSong} {cp : String}
    (h : find_common_path songs = some cp) : '\x5c' ∈ cp.data := by
  rw [find_common_path] at h
  rcases hm : songs.map (fun s => pathParts s.path) with _ | ⟨p, ps⟩
  · rw [hm] at h
    exact absurd h (by simp)
  · rw [hm] at h
    dsimp only at h
    rcases hcom : (List.range (minParts p ps)).filterMap
        (fun i => if samePartAt (p :: ps) i then some (p.getD i "") else none)
      with _ | ⟨c, cs⟩
    · rw [hcom] at h
      exact absurd h (by simp)
    · rw [hcom] at h
      have hcp := Option.some.inj h
      rw [← hcp, String.data_append]
      exact List.mem_append_right _ (by decide)

/-- After `paths_to_posix`, no song path contains a backslash. -/
theorem posix_paths_backslash_free (x : M3uPlaylist) :
    ∀ s ∈ (paths_to_posix x).songs, '\x5c' ∉ s.path.data := by
  intro s hs
  simp only [paths_to_posix, List.mem_map] at hs
  rcases hs with ⟨t, _, rfl⟩
  exact backslash_not_mem_posix t.path.data

/-- Counterexample for C2: the single-song playlist with path
`"...\.\"` normalizes successfully, but removing the escape tokens
`"..\"` from `"...\.\"` glues the flanks into a fresh `"..\"`, which
`paths_to_posix` then turns into `"../"` — the final path consists of a
parent-directory escape token (`".."` followed by a separator). -/
theorem c2_escape_token_survives_counterexample :
    (sanitize_paths ⟨"n.m3u", [⟨"...\x5c.\x5c", "", "", ""⟩], none⟩).map
      (fun q => q.songs.map (fun s => s.path)) = some ["../"] ∧
    strContains "../" (".." ++ "/") = true :=
  ⟨rfl, by decide⟩

/-- Claim C2 (amended): when `sanitize_paths` completes on a playlist,
no resulting song path contains a backslash (all separators are forward
slashes), and consequently no resulting song path contains the computed
`common_path` as a substring (the common path always ends in a
backslash).  The parent-directory-escape part of the original claim is
dropped: forward-slash escape tokens are untouched and backslash escape
tokens can even be re-created by the removal itself. -/
theorem c2_sanitized_paths_clean (pl q : M3uPlaylist)
    (h : sanitize_paths pl = some q) :
    (∀ s ∈ q.songs, strContains s.path "\x5c" = false) ∧
    (∀ cp, q.common_path = some cp →
      ∀ s ∈ q.songs, strContains s.path cp = false) := by
  rw [sanitize_paths] at h
  rcases Option.map_eq_some'.mp h with ⟨q', hconv, hq⟩
  rw [convert_to_relative] at hconv
  rcases hf : find_common_path pl.songs with _ | cp0
  · rw [hf] at hconv
    exact absurd hconv (by simp)
  · rw [hf] at hconv
    have hq' := Option.some.inj hconv
    subst hq
    constructor
    · intro s hs
      exact hasSubstrCh_false_of_not_mem (by decide)
        (posix_paths_backslash_free q' s hs)
    · intro cp hcp s hs
      have hcp' : q'.common_path = some cp := hcp
      rw [← hq'] at hcp'
      have hcp0 : cp0 = cp := Option.some.inj hcp'
      exact hasSubstrCh_false_of_not_mem
        (backslash_mem_common_path (hcp0 ▸ hf))
        (posix_paths_backslash_free q' s hs)

/-- Witness for C2: sanitizing the two-song playlist with paths
`"a\x"`, `"a\y"` yields paths `"x"`, `"y"` and common path `"a\"`;
neither final path contains a backslash nor the common path. -/
theorem c2_sanitized_paths_clean_witness :
    sanitize_paths ⟨"n.m3u", [⟨"a\x5cx", "", "", ""⟩, ⟨"a\x5cy", "", "", ""⟩], none⟩ =
      some ⟨"n.m3u", [⟨"x", "", "", ""⟩, ⟨"y", "", "", ""⟩], some "a\x5c"⟩ ∧
    (∀ s ∈ (⟨"n.m3u", [⟨"x", "", "", ""⟩, ⟨"y", "", "", ""⟩], some "a\x5c"⟩ :
        M3uPlaylist).songs,
      strContains s.path "\x5c" = false) :=
  ⟨rfl,
   (c2_sanitized_paths_clean
     ⟨"n.m3u", [⟨"a\x5cx", "", "", ""⟩, ⟨"a\x5cy", "", "", ""⟩], none⟩
     ⟨"n.m3u", [⟨"x", "", "", ""⟩, ⟨"y", "", "", ""⟩], some "a\x5c"⟩ rfl).1⟩

/-- Counterexample for C3: sanitizing the two-song playlist `a\x`,
`a\y` once gives the normalized paths `x`, `y`; running the
normalization a second time does not leave them unchanged — it fails
altogether, because the already-relative paths share no common
component, the common-part list is empty, and `os.path.join(*[])`
raises `TypeError`. -/
theorem c3_second_sanitize_fails_counterexample :
    (sanitize_paths ⟨"n.m3u", [⟨"a\x5cx", "t", "t", "t"⟩,
      ⟨"a\x5cy", "t", "t", "t"⟩], none⟩).map
      (fun q => q.songs.map (fun t => t.path)) = some ["x", "y"] ∧
    (sanitize_paths ⟨"n.m3u", [⟨"a\x5cx", "t", "t", "t"⟩,
      ⟨"a\x5cy", "t", "t", "t"⟩], none⟩).bind sanitize_paths = none :=
  ⟨rfl, rfl⟩

/-- Claim C3 (amended): a second normalization run on an
already-sanitized playlist need not succeed (see the counterexample),
but whenever it does return a playlist it leaves every song's path
string exactly unchanged: after the first run every path is
backslash-free, and each rewriting pattern of the second run — the
escape token `"..\"` and the freshly computed common path, which always
carries backslash separators — contains a backslash, so no removal
fires and the separator conversion finds nothing to flip. -/
theorem c3_second_sanitize_noop (pl q r : M3uPlaylist)
    (h1 : sanitize_paths pl = some q)
    (h2 : sanitize_paths q = some r) :
    r.songs.map (fun t => t.path) = q.songs.map (fun t => t.path) := by
  have hfree : ∀ t ∈ q.songs, '\x5c' ∉ t.path.data := by
    rw [sanitize_paths] at h1
    rcases Option.map_eq_some'.mp h1 with ⟨q', _, hq⟩
    subst hq
    exact posix_paths_backslash_free q'
  rw [sanitize_paths] at h2
  rcases Option.map_eq_some'.mp h2 with ⟨q', hconv, hr⟩
  rw [convert_to_relative] at hconv
  rcases hf : find_common_path q.songs with _ | cp
  · rw [hf] at hconv
    exact absurd hconv (by simp)
  · rw [hf] at hconv
    have hq' := Option.some.inj hconv
    have hbs : '\x5c' ∈ cp.data := backslash_mem_common_path hf
    subst hr
    rw [← hq']
    simp only [paths_to_posix, List.map_map]
    refine List.map_congr_left ?_
    intro t ht
    simp only [Function.comp]
    have htf := hfree t ht
    have e1 : replaceAllS t.path "..\x5c" "" = t.path := by
      rw [replaceAllS, replaceAllCh_of_no_occ
        (hasSubstrCh_false_of_not_mem (by decide) htf)]
    have e2 : replaceAllS t.path cp "" = t.path := by
      rw [replaceAllS, replaceAllCh_of_no_occ
        (hasSubstrCh_false_of_not_mem hbs htf)]
    have e3 : replaceAllS t.path "\x5c" "/" = t.path := by
      rw [replaceAllS, replaceAllCh_of_no_occ
        (hasSubstrCh_false_of_not_mem (by decide) htf)]
    rw [e1, e2, e3]

/-- Witness for C3: the single-song playlist `a\b` sanitizes to the
path `a/b`; a second run on the result succeeds (common path `a\b\`
from the two slash-separated components) and returns the very same
playlist, path untouched. -/
theorem c3_second_sanitize_noop_witness :
    sanitize_paths ⟨"n.m3u", [⟨"a\x5cb", "t", "ar", "al"⟩], none⟩ =
      some ⟨"n.m3u", [⟨"a/b", "t", "ar", "al"⟩], some "a\x5cb\x5c"⟩ ∧
    sanitize_paths ⟨"n.m3u", [⟨"a/b", "t", "ar", "al"⟩], some "a\x5cb\x5c"⟩ =
      some ⟨"n.m3u", [⟨"a/b", "t", "ar", "al"⟩], some "a\x5cb\x5c"⟩ ∧
    (⟨"n.m3u", [⟨"a/b", "t", "ar", "al"⟩], some "a\x5cb\x5c"⟩ :
        M3uPlaylist).songs.map (fun t => t.path) =
      (⟨"n.m3u", [⟨"a/b", "t", "ar", "al"⟩], some "a\x5cb\x5c"⟩ :
        M3uPlaylist).songs.map (fun t => t.path) :=
  ⟨rfl, rfl,
   c3_second_sanitize_noop
     ⟨"n.m3u", [⟨"a\x5cb", "t", "ar", "al"⟩], none⟩
     ⟨"n.m3u", [⟨"a/b", "t", "ar", "al"⟩], some "a\x5cb\x5c"⟩
     ⟨"n.m3u", [⟨"a/b", "t", "ar", "al"⟩], some "a\x5cb\x5c"⟩
     rfl rfl⟩

/-! ## Claim C4: the removals delete every occurrence -/

theorem firstOccIdx_nil {pat : List Char} (h : pat ≠ []) :
    firstOccIdx [] pat = none := by
  cases pat with
  | nil => exact absurd rfl h
  | cons c cs => rfl

theorem firstOccIdx_none_iff {s pat : List Char} :
    firstOccIdx s pat = none ↔ hasSubstrCh s pat = false := by
  induction s with
  | nil =>
    cases pat with
    | nil => simp [firstOccIdx, hasSubstrCh, List.isPrefixOf]
    | cons c cs => simp [firstOccIdx, hasSubstrCh, List.isPrefixOf]
  | cons c rest ih =>
    by_cases hp : pat.isPrefixOf (c :: rest)
    · simp [firstOccIdx, hasSubstrCh, hp]
    · simp [firstOccIdx, hasSubstrCh, hp, Option.map_eq_none', ih]

theorem replaceGo_fuel_irrel {pat rep : List Char} :
    ∀ (f₁ : Nat) (s : List Char) (f₂ : Nat), s.length ≤ f₁ → s.length ≤ f₂ →
    replaceGo pat rep f₁ s = replaceGo pat rep f₂ s := by
  intro f₁
  induction f₁ with
  | zero =>
    intro s f₂ h₁ _
    have hs : s = [] := List.eq_nil_of_length_eq_zero (by omega)
    subst hs
    cases f₂ <;> rfl
  | succ m ih =>
    intro s f₂ h₁ h₂
    cases s with
    | nil => cases f₂ <;> rfl
    | cons c rest =>
      cases f₂ with
      | zero => simp at h₂
      | succ k =>
        by_cases hcond : pat ≠ [] ∧ pat.isPrefixOf (c :: rest)
        · rw [replaceGo, if_pos hcond, replaceGo, if_pos hcond]
          have hp1 : 1 ≤ pat.length := List.length_pos.mpr hcond.1
          have hlen1 : (List.drop pat.length (c :: rest)).length ≤ m := by
            simp only [List.length_drop, List.length_cons] at *
            omega
          have hlen2 : (List.drop pat.length (c :: rest)).length ≤ k := by
            simp only [List.length_drop, List.length_cons] at *
            omega
          rw [ih _ _ hlen1 hlen2]
        · rw [replaceGo, if_neg hcond, replaceGo, if_neg hcond]
          simp only [List.length_cons] at h₁ h₂
          rw [ih rest k (by omega) (by omega)]

theorem replaceGo_nil_pat {rep : List Char} :
    ∀ (f : Nat) (s : List Char), replaceGo [] rep f s = s := by
  intro f
  induction f with
  | zero => intro s; cases s <;> rfl
  | succ m ih =>
    intro s
    cases s with
    | nil => rfl
    | cons c rest =>
      rw [replaceGo, if_neg (by simp), ih]

theorem removeOccGo_nil_pat :
    ∀ (f : Nat) (s : List Char), removeOccGo [] f s = s := by
  intro f
  induction f with
  | zero => intro s; rfl
  | succ m ih =>
    intro s
    have h : firstOccIdx s [] = some 0 := by
      cases s <;> simp [firstOccIdx, List.isPrefixOf]
    rw [removeOccGo, h]
    simp [ih]

theorem replaceGo_take_drop {pat : List Char} (hpat : pat ≠ []) :
    ∀ (s : List Char) (i f : Nat), s.length ≤ f → firstOccIdx s pat = some i →
    replaceGo pat [] f s =
      s.take i ++ replaceAllCh (s.drop (i + pat.length)) pat [] := by
  intro s
  induction s with
  | nil =>
    intro i f _ hocc
    rw [firstOccIdx_nil hpat] at hocc
    exact absurd hocc (by simp)
  | cons c rest ih =>
    intro i f hf hocc
    cases f with
    | zero => simp at hf
    | succ m =>
      by_cases hp : pat.isPrefixOf (c :: rest)
      · have hi : i = 0 := by
          rw [firstOccIdx, if_pos hp] at hocc
          exact (Option.some.inj hocc).symm
        subst hi
        rw [replaceGo, if_pos ⟨hpat, hp⟩, List.take_zero, List.nil_append,
          Nat.zero_add, replaceAllCh]
        have hp1 : 1 ≤ pat.length := List.length_pos.mpr hpat
        refine replaceGo_fuel_irrel m _ _ ?_ (Nat.le_refl _)
        simp only [List.length_drop, List.length_cons] at *
        omega
      · rw [firstOccIdx, if_neg hp] at hocc
        rcases Option.map_eq_some'.mp hocc with ⟨j, hj, hij⟩
        subst hij
        rw [replaceGo, if_neg (by simp [hp]), List.take_succ_cons,
          show j + 1 + pat.length = (j + pat.length) + 1 by omega,
          List.drop_succ_cons, List.cons_append]
        exact congrArg (c :: ·) (ih j m (by simp at hf; omega) hj)

theorem replaceGo_eq_removeOccGo {pat : List Char} (hpat : pat ≠ []) :
    ∀ (n : Nat) (s : List Char) (f₁ f₂ : Nat), s.length ≤ n → s.length ≤ f₁ →
    s.length ≤ f₂ → replaceGo pat [] f₁ s = removeOccGo pat f₂ s := by
  intro n
  induction n with
  | zero =>
    intro s f₁ f₂ hn _ _
    have hs : s = [] := List.eq_nil_of_length_eq_zero (by omega)
    subst hs
    cases f₂ with
    | zero => cases f₁ <;> rfl
    | succ k =>
      rw [removeOccGo, firstOccIdx_nil hpat]
      cases f₁ <;> rfl
  | succ m ih =>
    intro s f₁ f₂ hn h₁ h₂
    rcases hocc : firstOccIdx s pat with _ | i
    · have hno : hasSubstrCh s pat = false := firstOccIdx_none_iff.mp hocc
      rw [replaceGo_of_no_occ h₁ hno]
      cases f₂ with
      | zero => rfl
      | succ k => rw [removeOccGo, hocc]
    · have hslen : 1 ≤ s.length := by
        rcases s with _ | ⟨c, rest⟩
        · rw [firstOccIdx_nil hpat] at hocc
          exact absurd hocc (by simp)
        · simp
      cases f₂ with
      | zero => exact absurd h₂ (by omega)
      | succ k =>
        rw [removeOccGo, hocc, replaceGo_take_drop hpat s i f₁ h₁ hocc]
        dsimp only
        congr 1
        rw [replaceAllCh]
        have hp1 : 1 ≤ pat.length := List.length_pos.mpr hpat
        refine ih _ _ _ ?_ (Nat.le_refl _) ?_
        · simp only [List.length_drop]
          omega
        · simp only [List.length_drop]
          omega

/-- The implementation's scan-based replace-all with empty replacement
equals the claim-side first-occurrence-based removal. -/
theorem replaceAllCh_eq_removeOcc (s pat : List Char) :
    replaceAllCh s pat [] = removeOcc s pat := by
  by_cases hpat : pat = []
  · subst hpat
    rw [replaceAllCh, replaceGo_nil_pat, removeOcc, removeOccGo_nil_pat]
  · rw [replaceAllCh, removeOcc]
    exact replaceGo_eq_removeOccGo hpat s.length s s.length s.length
      (Nat.le_refl _) (Nat.le_refl _) (Nat.le_refl _)

/-- String-level version of `replaceAllCh_eq_removeOcc`. -/
theorem replaceAllS_empty_eq_removeOccS (s pat : String) :
    replaceAllS s pat "" = removeOccS s pat :=
  congrArg String.mk (replaceAllCh_eq_removeOcc s.data pat.data)

/-- Counterexample for C4: with songs `a\x\a\y` and `a\z\q` the common
path is `a\`; the first song's path contains it twice, and
`convert_to_relative` removes BOTH occurrences, yielding `x\y` instead
of the `x\a\y` the claim (remove only the first occurrence) predicts. -/
theorem c4_all_occurrences_removed_counterexample :
    find_common_path [⟨"a\x5cx\x5ca\x5cy", "t", "t", "t"⟩,
      ⟨"a\x5cz\x5cq", "t", "t", "t"⟩] = some "a\x5c" ∧
    (convert_to_relative ⟨"n.m3u", [⟨"a\x5cx\x5ca\x5cy", "t", "t", "t"⟩,
      ⟨"a\x5cz\x5cq", "t", "t", "t"⟩], none⟩).map
      (fun p => p.songs.map (fun t => t.path)) = some ["x\x5cy", "z\x5cq"] ∧
    ("x\x5cy" : String) ≠ "x\x5ca\x5cy" :=
  ⟨rfl, rfl, by decide⟩

/-- Claim C4 (amended): `convert_to_relative` rewrites every song path
by first deleting every occurrence of the parent-escape token
(`".."` + separator) and then deleting every left-to-right
non-overlapping occurrence of the `common_path` string — not only the
first one; later occurrences are removed as well.  Stated as a
refinement: the implementation's rewriting coincides with the
first-occurrence-iterated removal `removeOccS`. -/
theorem c4_remove_every_occurrence (pl pl' : M3uPlaylist) (cp : String)
    (hf : find_common_path pl.songs = some cp)
    (hconv : convert_to_relative pl = some pl') :
    pl'.songs.map (fun t => t.path) =
      pl.songs.map (fun t => removeOccS (removeOccS t.path "..\x5c") cp) := by
  rw [convert_to_relative, hf] at hconv
  have h := Option.some.inj hconv
  rw [← h]
  simp only [List.map_map]
  refine List.map_congr_left ?_
  intro t _
  simp only [Function.comp]
  rw [replaceAllS_empty_eq_removeOccS, replaceAllS_empty_eq_removeOccS]

/-- Witness for C4: on the playlist `a\..\x`, `a\z` (common path `a\`)
the rewriting removes the escape token and every occurrence of the
common path, agreeing with the first-occurrence-iterated removal. -/
theorem c4_remove_every_occurrence_witness :
    find_common_path [⟨"a\x5c..\x5cx", "t", "t", "t"⟩,
      ⟨"a\x5cz", "t", "t", "t"⟩] = some "a\x5c" ∧
    convert_to_relative ⟨"n.m3u", [⟨"a\x5c..\x5cx", "t", "t", "t"⟩,
      ⟨"a\x5cz", "t", "t", "t"⟩], none⟩ =
      some ⟨"n.m3u", [⟨"x", "t", "t", "t"⟩, ⟨"z", "t", "t", "t"⟩],
        some "a\x5c"⟩ ∧
    ([⟨"x", "t", "t", "t"⟩, ⟨"z", "t", "t", "t"⟩] :
        List PlaylistSong).map (fun t => t.path) =
      ([⟨"a\x5c..\x5cx", "t", "t", "t"⟩, ⟨"a\x5cz", "t", "t", "t"⟩] :
        List PlaylistSong).map
        (fun t => removeOccS (removeOccS t.path "..\x5c") "a\x5c") :=
  ⟨rfl, rfl,
   c4_remove_every_occurrence
     ⟨"n.m3u", [⟨"a\x5c..\x5cx", "t", "t", "t"⟩,
       ⟨"a\x5cz", "t", "t", "t"⟩], none⟩
     ⟨"n.m3u", [⟨"x", "t", "t", "t"⟩, ⟨"z", "t", "t", "t"⟩],
       some "a\x5c"⟩
     "a\x5c" rfl rfl⟩
